import Mathlib

/-!
Verification of the PCA pipeline in src/PCA.ipynb.

The notebook's numerical pipeline is embedded shallowly over the exact
rationals ℚ:

* the raw ratings matrix (with missing entries) is a function
  Fin N → Fin D → Option ℚ, where none is a missing rating (NaN);
* df1 = M.replace(nan, 0) is the fillZero substitution;
* X_std = StandardScaler().fit_transform(df1) divides each centered column
  by its population standard deviation, where sklearn replaces a zero scale
  by 1 (sklearn preprocessing _handle_zeros_in_scale).  Rationals have no
  square-root function, so the computed standard deviation is passed as an
  explicit argument sigma and pinned down in each theorem by the hypotheses
  0 ≤ sigma j and (sigma j)^2 = colVarPop X j;
* cov_mat = (X_std - mean_vec).T.dot(X_std - mean_vec) / (N - 1) is matrix
  algebra over ℚ, and np.cov(X_std.T) is embedded from its documented
  definition for comparison;
* eig_pairs is the list comprehension of the notebook (absolute values of
  the eigenvalues paired with the eigenvector columns, in input order);
* explained-variance ratios and their cumulative sums (np.cumsum) are list
  computations.
-/

namespace PCA

open Matrix

/-- Missing-value substitution used by the notebook: df1 = M.replace(np.nan, 0)
replaces every missing rating by 0 and keeps present ratings unchanged. -/
def fillZero (x : Option ℚ) : ℚ := x.getD 0

/-- The dense matrix obtained from the raw matrix by the FillZero policy. -/
def filled {N D : ℕ} (raw : Fin N → Fin D → Option ℚ) :
    Matrix (Fin N) (Fin D) ℚ :=
  fun i j => fillZero (raw i j)

/-- Column means, np.mean(X_std, axis=0) in the notebook (also the mean
vector computed by StandardScaler.fit). -/
def mean_vec {N D : ℕ} (X : Matrix (Fin N) (Fin D) ℚ) (j : Fin D) : ℚ :=
  (∑ i, X i j) / N

/-- Population variance of column j (ddof = 0), the variance StandardScaler
uses to build its per-column scale. -/
def colVarPop {N D : ℕ} (X : Matrix (Fin N) (Fin D) ℚ) (j : Fin D) : ℚ :=
  (∑ i, (X i j - mean_vec X j) ^ 2) / N

/-- Per-column divisor of StandardScaler: the standard deviation, with a
zero value replaced by 1 (sklearn preprocessing _handle_zeros_in_scale), so
the transform never divides by zero. -/
def scaleOf (s : ℚ) : ℚ := if s = 0 then 1 else s

/-- StandardScaler().fit_transform on a dense matrix: subtract each
column's mean and divide by the column's scale.  The argument sigma is the
computed standard deviation of each column; theorems characterise it by
0 ≤ sigma j and (sigma j)^2 = colVarPop X j, the defining property of the
square root that the library computes in floating point. -/
def standardScaler {N D : ℕ} (X : Matrix (Fin N) (Fin D) ℚ)
    (sigma : Fin D → ℚ) : Matrix (Fin N) (Fin D) ℚ :=
  fun i j => (X i j - mean_vec X j) / scaleOf (sigma j)

/-- The notebook's standardization stage: fill missing entries with 0, then
apply StandardScaler. -/
def standardize {N D : ℕ} (raw : Fin N → Fin D → Option ℚ)
    (sigma : Fin D → ℚ) : Matrix (Fin N) (Fin D) ℚ :=
  standardScaler (filled raw) sigma

/-- Centered data, X_std - mean_vec in the notebook (numpy broadcasts the
row vector mean_vec over the rows). -/
def centered {N D : ℕ} (X : Matrix (Fin N) (Fin D) ℚ) :
    Matrix (Fin N) (Fin D) ℚ :=
  fun i j => X i j - mean_vec X j

/-- The notebook's explicit covariance computation:
cov_mat = (X_std - mean_vec).T.dot(X_std - mean_vec) / (X_std.shape[0] - 1).
The scalar division is entrywise. -/
def cov_mat {N D : ℕ} (X : Matrix (Fin N) (Fin D) ℚ) :
    Matrix (Fin D) (Fin D) ℚ :=
  fun j k => ((centered X)ᵀ * centered X) j k / ((N : ℚ) - 1)

/-- Modelled from numpy's documented semantics of np.cov(X_std.T): with each
row of the argument a variable, entry (j, k) is the sample covariance of
columns j and k of X_std with divisor N - 1:
sum_i (X[i][j] - mu_j) * (X[i][k] - mu_k) / (N - 1). -/
def npCov {N D : ℕ} (X : Matrix (Fin N) (Fin D) ℚ) :
    Matrix (Fin D) (Fin D) ℚ :=
  fun j k => (∑ i, (X i j - mean_vec X j) * (X i k - mean_vec X k)) / ((N : ℚ) - 1)

/-- The notebook's ranking cell,
eig_pairs = [(np.abs(eig_vals[i]), eig_vecs[:,i]) for i in range(len(eig_vals))]:
the absolute value of each eigenvalue paired with the corresponding
eigenvector column, in the original index order produced by np.linalg.eig.
The cell contains no sort call.  vecs i stands for the column eig_vecs[:,i]. -/
def eig_pairs {D : ℕ} (vals : List ℚ) (vecs : ℕ → Fin D → ℚ) :
    List (ℚ × (Fin D → ℚ)) :=
  (List.range vals.length).map fun i => (|vals.getD i 0|, vecs i)

/-- Explained-variance ratio of each component: its eigenvalue divided by
the sum of all eigenvalues (the quantity exposed by
pca.explained_variance_ratio_ and described in the ranking stage). -/
def explainedVarianceRatio (vals : List ℚ) : List ℚ :=
  vals.map fun v => v / vals.sum

/-- Running sums with accumulator, the recursion behind np.cumsum. -/
def cumsumFrom (acc : ℚ) : List ℚ → List ℚ
  | [] => []
  | v :: vs => (acc + v) :: cumsumFrom (acc + v) vs

/-- np.cumsum on a list of rationals: the list of partial sums. -/
def cumsum (l : List ℚ) : List ℚ := cumsumFrom 0 l

/-- Projection of the standardized data onto a basis of K component
columns: reduced = std · basis (what pca.fit_transform returns, up to the
library's internal basis choice). -/
def project {N D K : ℕ} (X : Matrix (Fin N) (Fin D) ℚ)
    (B : Matrix (Fin D) (Fin K) ℚ) : Matrix (Fin N) (Fin K) ℚ :=
  X * B

/-- Reconstruction from the reduced representation:
std_approx = reduced · basisᵗ. -/
def reconstruct {N D K : ℕ} (R : Matrix (Fin N) (Fin K) ℚ)
    (B : Matrix (Fin D) (Fin K) ℚ) : Matrix (Fin N) (Fin D) ℚ :=
  R * Bᵀ

/-- Modelled from sklearn's documented PCA behaviour for the call
PCA().fit(X_std): with the default n_components=None the fitted model keeps
min(n_samples, n_features) components (the number of singular values of the
centered N×D matrix), and explained_variance_ratio_ has one entry per kept
component, each singular value squared over N - 1 divided by the total.
sv i stands for the i-th singular value. -/
def pcaFitRatios (N D : ℕ) (sv : ℕ → ℚ) : List ℚ :=
  explainedVarianceRatio
    ((List.range (min N D)).map fun i => sv i ^ 2 / ((N : ℚ) - 1))

/-! Concrete inputs used by witnesses and counterexamples. -/

/-- A 2×1 raw matrix with one missing rating and one rating of 2. -/
def raw0 : Fin 2 → Fin 1 → Option ℚ := fun i _ => if i = 0 then none else some 2

/-- The standard deviation of the single column of raw0 after FillZero:
the filled column is (0, 2), with mean 1 and population variance 1. -/
def sigma0 : Fin 1 → ℚ := fun _ => 1

/-- A 2×1 raw matrix whose single column is constant. -/
def rawC : Fin 2 → Fin 1 → Option ℚ := fun _ _ => some 3

/-- The standard deviation of the constant column of rawC is 0. -/
def sigmaC : Fin 1 → ℚ := fun _ => 0

/-- A 1×1 data matrix: a single observation. -/
def X1 : Matrix (Fin 1) (Fin 1) ℚ := Matrix.of ![![5]]

/-- A standardized 2×1 data matrix (column mean 0). -/
def X2 : Matrix (Fin 2) (Fin 1) ℚ := Matrix.of ![![-1], ![1]]

/-- A 2×2 data matrix. -/
def X0 : Matrix (Fin 2) (Fin 2) ℚ := Matrix.of ![![1, 2], ![3, 4]]

/-- An orthogonal 2×2 basis (a rotation with rational entries). -/
def B0 : Matrix (Fin 2) (Fin 2) ℚ := Matrix.of ![![3/5, 4/5], ![-4/5, 3/5]]

/-- A trivial family of eigenvector columns for the ranking counterexample. -/
def vecs0 : ℕ → Fin 2 → ℚ := fun _ _ => 0

/-! Helper lemmas. -/

/-- Centered entries of a column sum to zero. -/
lemma sum_sub_mean {N D : ℕ} (X : Matrix (Fin N) (Fin D) ℚ) (j : Fin D)
    (hN : (N : ℚ) ≠ 0) : ∑ i, (X i j - mean_vec X j) = 0 := by
  rw [Finset.sum_sub_distrib, Finset.sum_const, Finset.card_univ,
    Fintype.card_fin, nsmul_eq_mul, mean_vec]
  field_simp

/-- Applying StandardScaler makes every column mean zero, whatever the
per-column scale is. -/
lemma mean_vec_standardScaler {N D : ℕ} (X : Matrix (Fin N) (Fin D) ℚ)
    (sigma : Fin D → ℚ) (j : Fin D) (hN : (N : ℚ) ≠ 0) :
    mean_vec (standardScaler X sigma) j = 0 := by
  unfold mean_vec standardScaler
  rw [← Finset.sum_div]
  have h := sum_sub_mean X j hN
  unfold mean_vec at h ⊢
  rw [h, zero_div, zero_div]

/-- A column that takes two different values has nonzero population
variance. -/
lemma colVarPop_ne_zero {N D : ℕ} (X : Matrix (Fin N) (Fin D) ℚ) (j : Fin D)
    (hnc : ∃ i i' : Fin N, X i j ≠ X i' j) : colVarPop X j ≠ 0 := by
  obtain ⟨i0, i1, hne⟩ := hnc
  have hN : (N : ℚ) ≠ 0 := by
    have h0 : 0 < N := i0.pos
    exact_mod_cast h0.ne'
  intro h0
  have hsum : ∑ i, (X i j - mean_vec X j) ^ 2 = 0 := by
    unfold colVarPop at h0
    rcases div_eq_zero_iff.mp h0 with h | h
    · exact h
    · exact absurd h hN
  have hall : ∀ i : Fin N, (X i j - mean_vec X j) ^ 2 = 0 := fun i =>
    (Finset.sum_eq_zero_iff_of_nonneg fun i _ => sq_nonneg _).mp hsum i
      (Finset.mem_univ i)
  have h0' : X i0 j = mean_vec X j := by
    have := sq_eq_zero_iff.mp (hall i0)
    linarith
  have h1' : X i1 j = mean_vec X j := by
    have := sq_eq_zero_iff.mp (hall i1)
    linarith
  exact hne (h0'.trans h1'.symm)

/-- After StandardScaler with the true standard deviation of a
non-degenerate column, the column's population variance is one. -/
lemma colVarPop_standardScaler {N D : ℕ} (X : Matrix (Fin N) (Fin D) ℚ)
    (sigma : Fin D → ℚ) (j : Fin D) (hN : (N : ℚ) ≠ 0)
    (hs2 : sigma j ^ 2 = colVarPop X j) (hV : colVarPop X j ≠ 0) :
    colVarPop (standardScaler X sigma) j = 1 := by
  have hs : sigma j ≠ 0 := by
    intro h
    rw [h] at hs2
    exact hV (by rw [← hs2]; ring)
  have hm := mean_vec_standardScaler X sigma j hN
  unfold colVarPop
  rw [hm]
  have hentry : ∀ i, standardScaler X sigma i j - 0 = (X i j - mean_vec X j) / sigma j := by
    intro i
    simp [standardScaler, scaleOf, hs]
  rw [Finset.sum_congr rfl fun i _ => by rw [hentry i]]
  have hpow : ∀ i : Fin N, ((X i j - mean_vec X j) / sigma j) ^ 2
      = (X i j - mean_vec X j) ^ 2 / sigma j ^ 2 := fun i => div_pow _ _ _
  rw [Finset.sum_congr rfl fun i _ => hpow i, ← Finset.sum_div, div_right_comm]
  have : (∑ i, (X i j - mean_vec X j) ^ 2) / (N : ℚ) = colVarPop X j := rfl
  rw [this, hs2, div_self hV]

/-- Entry formula for the explicit covariance matrix of the notebook. -/
lemma cov_mat_apply {N D : ℕ} (X : Matrix (Fin N) (Fin D) ℚ) (j k : Fin D) :
    cov_mat X j k
      = (∑ i, (X i j - mean_vec X j) * (X i k - mean_vec X k)) / ((N : ℚ) - 1) := by
  unfold cov_mat centered
  rw [Matrix.mul_apply]
  simp [Matrix.transpose_apply]

/-- Sum of a list divided elementwise equals the sum divided. -/
lemma sum_map_div (l : List ℚ) (s : ℚ) :
    (l.map fun v => v / s).sum = l.sum / s := by
  induction l with
  | nil => simp
  | cons v vs ih => simp [ih, add_div]

/-- Partial sums of a nonnegative list are monotone. -/
lemma chain'_cumsumFrom (l : List ℚ) : ∀ acc : ℚ, (∀ v ∈ l, 0 ≤ v) →
    List.Chain' (· ≤ ·) (cumsumFrom acc l) := by
  induction l with
  | nil => intro acc _; simp [cumsumFrom]
  | cons v vs ih =>
    intro acc h
    cases vs with
    | nil => simp [cumsumFrom]
    | cons w ws =>
      simp only [cumsumFrom, List.chain'_cons]
      constructor
      · have hw : 0 ≤ w := h w (by simp)
        linarith
      · have h2 := ih (acc + v) fun x hx => h x (List.mem_cons_of_mem _ hx)
        simp only [cumsumFrom] at h2
        exact h2

/-- The last partial sum is the starting value plus the total sum. -/
lemma cumsumFrom_getLastD (l : List ℚ) : ∀ acc v : ℚ,
    (cumsumFrom acc (v :: l)).getLastD 0 = acc + (v :: l).sum := by
  induction l with
  | nil => intro acc v; simp [cumsumFrom]
  | cons w ws ih =>
    intro acc v
    have h := ih (acc + v) w
    simp only [cumsumFrom, List.getLastD_cons, List.sum_cons] at h ⊢
    rw [h]
    ring

/-! Claim theorems. -/

/-- C1: standardization under FillZero first replaces every missing entry
with 0; the output entry is the filled entry minus the column mean, divided
by the column standard deviation; consequently every non-constant column of
the result has mean 0 and (population) variance 1.  The standard deviation
sigma j is pinned to the computed square root of the column's population
variance by the hypothesis hs2. -/
theorem standardize_fillZero_mean_zero_var_one {N D : ℕ}
    (raw : Fin N → Fin D → Option ℚ) (sigma : Fin D → ℚ) (j : Fin D)
    (hs2 : sigma j ^ 2 = colVarPop (filled raw) j)
    (hnc : ∃ i i' : Fin N, filled raw i j ≠ filled raw i' j) :
    (∀ i, standardize raw sigma i j
        = (fillZero (raw i j) - mean_vec (filled raw) j) / sigma j)
      ∧ mean_vec (standardize raw sigma) j = 0
      ∧ colVarPop (standardize raw sigma) j = 1 := by
  have hV : colVarPop (filled raw) j ≠ 0 := colVarPop_ne_zero _ j hnc
  have hs : sigma j ≠ 0 := by
    intro h
    rw [h] at hs2
    exact hV (by rw [← hs2]; ring)
  have hN : (N : ℚ) ≠ 0 := by
    obtain ⟨i0, -, -⟩ := hnc
    exact_mod_cast i0.pos.ne'
  refine ⟨fun i => ?_, mean_vec_standardScaler _ sigma j hN,
    colVarPop_standardScaler _ sigma j hN hs2 hV⟩
  simp [standardize, standardScaler, scaleOf, hs, filled]

/-- C1 witness: the filled matrix of raw0 has column (0, 2); with standard
deviation 1 the standardized column is (-1, 1), of mean 0 and variance 1. -/
theorem standardize_fillZero_mean_zero_var_one_witness :
    mean_vec (standardize raw0 sigma0) 0 = 0
      ∧ colVarPop (standardize raw0 sigma0) 0 = 1 := by
  have hs2 : sigma0 0 ^ 2 = colVarPop (filled raw0) 0 := by
    norm_num [sigma0, colVarPop, mean_vec, filled, raw0, fillZero,
      Fin.sum_univ_two]
  have h := standardize_fillZero_mean_zero_var_one raw0 sigma0 0 hs2
    ⟨0, 1, by norm_num [filled, raw0, fillZero]⟩
  exact ⟨h.2.1, h.2.2⟩

/-- C2: on a standardized matrix (all column means zero) with N ≥ 2, the
covariance stage returns, at entry (j, k), the unbiased sample estimator:
the sum over rows of std[i][j] * std[i][k], divided by N - 1; the stage
computes it as (centered data)ᵗ × (centered data) / (N - 1). -/
theorem cov_mat_unbiased_estimator {N D : ℕ} (X : Matrix (Fin N) (Fin D) ℚ)
    (hN : 2 ≤ N) (hmean : ∀ j, mean_vec X j = 0) (j k : Fin D) :
    cov_mat X j k = (∑ i, X i j * X i k) / ((N : ℚ) - 1) := by
  rw [cov_mat_apply]
  simp [hmean]

/-- C2 witness: on the standardized 2×1 matrix X2 the covariance entry is
the sum of squares over N - 1. -/
theorem cov_mat_unbiased_estimator_witness :
    (2 ≤ 2)
      ∧ cov_mat X2 0 0 = (∑ i, X2 i 0 * X2 i 0) / (((2 : ℕ) : ℚ) - 1) := by
  refine ⟨le_refl 2, cov_mat_unbiased_estimator X2 (le_refl 2) ?_ 0 0⟩
  intro j
  fin_cases j
  norm_num [mean_vec, X2, Fin.sum_univ_two]

/-- C3: the covariance matrix is symmetric and its diagonal entries are
nonnegative whenever N ≥ 2. -/
theorem cov_mat_symm_diag_nonneg {N D : ℕ} (X : Matrix (Fin N) (Fin D) ℚ)
    (hN : 2 ≤ N) :
    (∀ j k, cov_mat X j k = cov_mat X k j) ∧ ∀ j, 0 ≤ cov_mat X j j := by
  constructor
  · intro j k
    rw [cov_mat_apply, cov_mat_apply]
    have h : (∑ i, (X i j - mean_vec X j) * (X i k - mean_vec X k))
        = ∑ i, (X i k - mean_vec X k) * (X i j - mean_vec X j) :=
      Finset.sum_congr rfl fun i _ => mul_comm _ _
    rw [h]
  · intro j
    rw [cov_mat_apply]
    apply div_nonneg
    · exact Finset.sum_nonneg fun i _ => mul_self_nonneg _
    · have h2 : (2 : ℚ) ≤ (N : ℚ) := by exact_mod_cast hN
      linarith

/-- C3 witness: symmetry and nonnegative diagonal at the concrete 2×1
standardized matrix X2. -/
theorem cov_mat_symm_diag_nonneg_witness :
    (2 ≤ 2)
      ∧ ((∀ j k, cov_mat X2 j k = cov_mat X2 k j) ∧ ∀ j, 0 ≤ cov_mat X2 j j) :=
  ⟨le_refl 2, cov_mat_symm_diag_nonneg X2 (le_refl 2)⟩

/-- C4 counterexample: at the one-observation input X1 the notebook's
covariance computation returns a matrix value instead of failing: the code
has no sample-count check, the divisor N - 1 is literally zero, and the
division-by-zero artifact (NaN in numpy floating point, the zero matrix
under the exact embedding's x / 0 = 0 convention) is silently produced. -/
theorem cov_mat_one_sample_returns_value :
    cov_mat X1 = 0 ∧ ((1 : ℕ) : ℚ) - 1 = 0 := by
  constructor
  · funext j k
    fin_cases j
    fin_cases k
    simp [cov_mat_apply, mean_vec, X1, Fin.sum_univ_one]
  · norm_num

/-- C4 amended: the covariance stage performs no sample-count validation:
every N = 1 input yields the zero-divisor artifact (the zero matrix under
the embedding) rather than an InsufficientSamples failure, while every
N = 2 input succeeds, the entries being the summed centered products
divided by N - 1 = 1. -/
theorem cov_mat_no_sample_count_check :
    (∀ (D : ℕ) (X : Matrix (Fin 1) (Fin D) ℚ), cov_mat X = 0)
      ∧ ∀ (D : ℕ) (X : Matrix (Fin 2) (Fin D) ℚ) (j k : Fin D),
          cov_mat X j k
            = ∑ i, (X i j - mean_vec X j) * (X i k - mean_vec X k) := by
  constructor
  · intro D X
    funext j k
    rw [cov_mat_apply]
    norm_num
  · intro D X j k
    rw [cov_mat_apply]
    norm_num

/-- C5: evaluated at the eigendecomposer output eig_vals = [1, 2] (any
order that is not already descending), the ranking cell returns the
eigenvalue sequence [1, 2] unchanged — the cell contains no sort call, so
the result is not sorted by eigenvalue magnitude descending, contradicting
both the claim and the cell's own comment. -/
theorem eig_pairs_not_sorted :
    (eig_pairs [1, 2] vecs0).map Prod.fst = [1, 2]
      ∧ ¬ List.Sorted (· ≥ ·) ((eig_pairs [1, 2] vecs0).map Prod.fst) := by
  have h : (eig_pairs [1, 2] vecs0).map Prod.fst = ([1, 2] : List ℚ) := by
    simp [eig_pairs, List.range_succ]
  refine ⟨h, ?_⟩
  rw [h]
  norm_num [List.sorted_cons]

/-- C6 counterexample: for the eigenvalue sequence [2, -1] — nonzero total
sum 1, but containing a negative (noise) value, which the spec explicitly
keeps — the explained-variance ratios are [2, -1] and the cumulative sums
[2, 1] strictly decrease, so the cumulative sum is not non-decreasing. -/
theorem cumsum_ratio_not_monotone :
    (([2, -1] : List ℚ).sum ≠ 0)
      ∧ ¬ List.Chain' (· ≤ ·) (cumsum (explainedVarianceRatio [2, -1])) := by
  constructor
  · norm_num
  · simp [cumsum, cumsumFrom, explainedVarianceRatio]
    norm_num

/-- C6 amended: for every eigenvalue sequence with nonnegative entries (as
a positive semi-definite covariance spectrum has) and nonzero total sum,
the cumulative sums of the explained-variance ratios are non-decreasing,
the ratios sum to 1 over the full sequence, and the last cumulative sum
equals 1. -/
theorem cumsum_ratio_monotone_total_one (vals : List ℚ)
    (hpos : ∀ v ∈ vals, 0 ≤ v) (hs : vals.sum ≠ 0) :
    List.Chain' (· ≤ ·) (cumsum (explainedVarianceRatio vals))
      ∧ (explainedVarianceRatio vals).sum = 1
      ∧ (cumsum (explainedVarianceRatio vals)).getLastD 0 = 1 := by
  have hS : 0 < vals.sum := lt_of_le_of_ne (List.sum_nonneg hpos) (Ne.symm hs)
  have hratio : ∀ r ∈ explainedVarianceRatio vals, 0 ≤ r := by
    intro r hr
    obtain ⟨v, hv, rfl⟩ := List.mem_map.mp hr
    exact div_nonneg (hpos v hv) hS.le
  have hsum1 : (explainedVarianceRatio vals).sum = 1 := by
    unfold explainedVarianceRatio
    rw [sum_map_div, div_self hs]
  refine ⟨chain'_cumsumFrom _ 0 hratio, hsum1, ?_⟩
  cases hv : explainedVarianceRatio vals with
  | nil =>
    exfalso
    have hnil : vals = [] := by
      cases vals with
      | nil => rfl
      | cons a l => simp [explainedVarianceRatio] at hv
    rw [hnil] at hs
    simp at hs
  | cons r rs =>
    have h := cumsumFrom_getLastD rs 0 r
    unfold cumsum
    rw [hv] at hsum1
    rw [h, zero_add]
    exact hsum1

/-- C6 witness: for the nonnegative sequence [1, 3] the ratios are
[1/4, 3/4], the cumulative sums [1/4, 1] are non-decreasing and end at 1. -/
theorem cumsum_ratio_monotone_total_one_witness :
    (∀ v ∈ ([1, 3] : List ℚ), 0 ≤ v)
      ∧ (([1, 3] : List ℚ).sum ≠ 0)
      ∧ (List.Chain' (· ≤ ·) (cumsum (explainedVarianceRatio [1, 3]))
          ∧ (explainedVarianceRatio [1, 3]).sum = 1
          ∧ (cumsum (explainedVarianceRatio [1, 3])).getLastD 0 = 1) := by
  have h1 : ∀ v ∈ ([1, 3] : List ℚ), 0 ≤ v := by norm_num
  have h2 : ([1, 3] : List ℚ).sum ≠ 0 := by norm_num
  exact ⟨h1, h2, cumsum_ratio_monotone_total_one [1, 3] h1 h2⟩

/-- C7: projecting a standardized matrix onto a full orthonormal basis of
all D components (K = D, so basis times its transpose is the identity) and
reconstructing via reduced · basisᵗ reproduces the matrix exactly. -/
theorem project_reconstruct_roundtrip {N D : ℕ}
    (X : Matrix (Fin N) (Fin D) ℚ) (B : Matrix (Fin D) (Fin D) ℚ)
    (hB : B * Bᵀ = 1) : reconstruct (project X B) B = X := by
  unfold project reconstruct
  rw [Matrix.mul_assoc, hB, Matrix.mul_one]

/-- C7 witness: the round trip at the concrete data X0 with the rational
rotation basis B0. -/
theorem project_reconstruct_roundtrip_witness :
    B0 * B0ᵀ = 1 ∧ reconstruct (project X0 B0) B0 = X0 := by
  have hB : B0 * B0ᵀ = 1 := by
    funext j k
    fin_cases j <;> fin_cases k <;>
      norm_num [B0, Matrix.mul_apply, Fin.sum_univ_two, Matrix.transpose,
        Matrix.one_apply]
  exact ⟨hB, project_reconstruct_roundtrip X0 B0 hB⟩

/-- C8: a constant feature column does not crash standardization: the
divisor produced by scaleOf is never zero (a zero standard deviation is
replaced by 1), and every entry of the standardized column is 0. -/
theorem standardize_constant_column {N D : ℕ}
    (raw : Fin N → Fin D → Option ℚ) (sigma : Fin D → ℚ) (j : Fin D) (c : ℚ)
    (hN : 0 < N) (hc : ∀ i, fillZero (raw i j) = c) :
    scaleOf (sigma j) ≠ 0 ∧ ∀ i, standardize raw sigma i j = 0 := by
  have hQ : (N : ℚ) ≠ 0 := by exact_mod_cast hN.ne'
  have hmean : mean_vec (filled raw) j = c := by
    unfold mean_vec filled
    rw [Finset.sum_congr rfl fun i _ => hc i, Finset.sum_const,
      Finset.card_univ, Fintype.card_fin, nsmul_eq_mul]
    field_simp
  constructor
  · unfold scaleOf
    split
    · exact one_ne_zero
    · assumption
  · intro i
    unfold standardize standardScaler
    have hf : filled raw i j = c := hc i
    rw [hf, hmean, sub_self, zero_div]

/-- C8 witness: the constant column of rawC (all ratings 3, standard
deviation 0) standardizes to the zero column with a nonzero divisor. -/
theorem standardize_constant_column_witness :
    scaleOf (sigmaC 0) ≠ 0 ∧ ∀ i, standardize rawC sigmaC i 0 = 0 :=
  standardize_constant_column rawC sigmaC 0 3 (by norm_num)
    fun i => by norm_num [fillZero, rawC]

/-- C9 counterexample: for a valid 2×3 input (N = 2 observations, the
spec's minimum valid sample count, and D = 3 features, so N < D) the
fitted model keeps min(2, 3) = 2 components, so the exposed
explained-variance-ratio sequence has length 2, not D = 3. -/
theorem pcaFitRatios_length_not_D :
    (pcaFitRatios 2 3 fun _ => 0).length = 2 ∧ (2 : ℕ) ≠ 3 := by
  constructor
  · simp [pcaFitRatios, explainedVarianceRatio]
  · decide

/-- C9 amended: the explained-variance-ratio sequence exposed by the
pipeline has length min(N, D) — one ratio per kept component — which
equals D exactly when D ≤ N, and is shorter than D whenever N < D. -/
theorem pcaFitRatios_length_min (N D : ℕ) (sv : ℕ → ℚ) :
    (pcaFitRatios N D sv).length = min N D := by
  simp [pcaFitRatios, explainedVarianceRatio]

/-- C10: the notebook's explicit covariance formula, centering by the
recomputed column-mean vector, produces exactly the matrix that np.cov of
the transposed data is documented to produce, for every input matrix. -/
theorem cov_mat_eq_npCov {N D : ℕ} (X : Matrix (Fin N) (Fin D) ℚ)
    (hN : 2 ≤ N) : cov_mat X = npCov X := by
  funext j k
  rw [cov_mat_apply]
  rfl

/-- C10 witness: the two covariance computations agree on the concrete 2×1
standardized matrix X2. -/
theorem cov_mat_eq_npCov_witness : (2 ≤ 2) ∧ cov_mat X2 = npCov X2 :=
  ⟨le_refl 2, cov_mat_eq_npCov X2 (le_refl 2)⟩

end PCA
